import Mathlib

/-!
Verification of the pgen grammar-compilation pipeline (parso, `pgen.py`).

The development shallowly embeds the data model and the algorithms of the
source file: powerset construction (`_make_dfas` with its inner `addclosure`),
DFA minimization (`_simplify_dfas`), transition classification and
reserved-string interning (`generate_grammar`, `_make_transition`), and the
FIRST-plan computation (`_calculate_tree_traversal`,
`_calculate_first_plans`).

Python dictionaries are embedded as association lists in insertion order
(assignment updates the first matching key in place, otherwise appends),
Python object identity for `DFAState` is embedded as an arena index
(`Nat`) into a store, and Python sets of `NFAState` objects are embedded
as sorted duplicate-free lists of state indices.  Recursions that the
source drives by mutation of a growing or shrinking structure are embedded
with an explicit fuel argument; sufficiency of the chosen fuel is proved
where a claim depends on it.
-/

set_option autoImplicit false

namespace Pgen

/-! ## Association lists (embedding of Python `dict` in insertion order) -/

/-- Lookup of a key, returning the first matching value (`dict.get`). -/
def aget {α β : Type} [DecidableEq α] (k : α) : List (α × β) → Option β
  | [] => none
  | p :: rest => if p.1 = k then some p.2 else aget k rest

/-- Assignment `d[k] = v`: update the first matching entry in place,
otherwise append at the end — exactly Python's insertion-order dict. -/
def aset {α β : Type} [DecidableEq α] (k : α) (v : β) : List (α × β) → List (α × β)
  | [] => [(k, v)]
  | p :: rest => if p.1 = k then (k, v) :: rest else p :: aset k v rest

/-- The keys of an association list are pairwise distinct (Python dicts
guarantee this by construction). -/
def nodupKeys {α β : Type} (l : List (α × β)) : Prop :=
  (l.map Prod.fst).Nodup

instance {α β : Type} [DecidableEq α] (l : List (α × β)) : Decidable (nodupKeys l) := by
  unfold nodupKeys; infer_instance

theorem aget_some_mem {α β : Type} [DecidableEq α] {k : α} {v : β} :
    ∀ {l : List (α × β)}, aget k l = some v → (k, v) ∈ l := by
  intro l
  induction l with
  | nil => intro h; simp [aget] at h
  | cons p rest ih =>
    intro h
    by_cases hp : p.1 = k
    · simp only [aget, if_pos hp, Option.some.injEq] at h
      subst h
      cases p with
      | mk a b =>
        simp only at hp
        subst hp
        exact List.mem_cons_self _ _
    · simp [aget, hp] at h
      right
      exact ih h

theorem aget_eq_none {α β : Type} [DecidableEq α] {k : α} :
    ∀ {l : List (α × β)}, aget k l = none ↔ k ∉ l.map Prod.fst := by
  intro l
  induction l with
  | nil => simp [aget]
  | cons p rest ih =>
    by_cases hp : p.1 = k
    · simp [aget, hp]
    · simp [aget, hp, ih, Ne.symm hp]

theorem mem_aget_of_nodupKeys {α β : Type} [DecidableEq α] {k : α} {v : β} :
    ∀ {l : List (α × β)}, nodupKeys l → (k, v) ∈ l → aget k l = some v := by
  intro l
  induction l with
  | nil => intro _ h; simp at h
  | cons p rest ih =>
    intro hnd h
    rcases List.mem_cons.mp h with h | h
    · rw [← h]; simp [aget]
    · have hk : k ∈ rest.map Prod.fst := List.mem_map_of_mem Prod.fst h
      have hp : p.1 ≠ k := by
        intro he
        have := (List.nodup_cons.mp hnd).1
        rw [he] at this
        exact this hk
      simp [aget, hp]
      exact ih (List.nodup_cons.mp hnd).2 h

theorem aget_aset_self {α β : Type} [DecidableEq α] (k : α) (v : β) :
    ∀ (l : List (α × β)), aget k (aset k v l) = some v := by
  intro l
  induction l with
  | nil => simp [aset, aget]
  | cons p rest ih =>
    by_cases hp : p.1 = k
    · simp [aset, hp, aget]
    · simp [aset, hp, aget, ih]

theorem aget_aset_ne {α β : Type} [DecidableEq α] {k k' : α} (v : β) (h : k ≠ k') :
    ∀ (l : List (α × β)), aget k' (aset k v l) = aget k' l := by
  intro l
  induction l with
  | nil => simp [aset, aget, h]
  | cons p rest ih =>
    by_cases hp : p.1 = k
    · simp [aset, hp, aget, h]
    · simp [aset, hp, aget, ih]

theorem keys_aset {α β : Type} [DecidableEq α] (k : α) (v : β) :
    ∀ (l : List (α × β)),
      (aset k v l).map Prod.fst = if k ∈ l.map Prod.fst then l.map Prod.fst
        else l.map Prod.fst ++ [k] := by
  intro l
  induction l with
  | nil => simp [aset]
  | cons p rest ih =>
    by_cases hp : p.1 = k
    · simp [aset, hp]
    · simp only [aset, if_neg hp, List.map_cons, ih]
      by_cases hk : k ∈ rest.map Prod.fst
      · simp [hk, Ne.symm hp]
      · simp [hk, Ne.symm hp]

theorem nodupKeys_aset {α β : Type} [DecidableEq α] (k : α) (v : β)
    {l : List (α × β)} (h : nodupKeys l) : nodupKeys (aset k v l) := by
  unfold nodupKeys at *
  rw [keys_aset]
  by_cases hk : k ∈ l.map Prod.fst
  · simpa [hk]
  · simp only [if_neg hk]
    rw [List.nodup_append]
    refine ⟨h, List.nodup_singleton _, ?_⟩
    intro a ha hb
    simp only [List.mem_singleton] at hb
    subst hb
    exact hk ha

/-! ## Data model: transitions, plans, DFA states, stores

`TransKey` embeds the parser-facing transition key produced by
`_make_transition`: either an opaque token type obtained from the token
namespace, or a `ReservedString` object.  Reserved strings are identified
by their allocation index in the shared intern table, so Python object
identity becomes index equality. -/

inductive TransKey : Type
  | token (t : Nat)
  | reserved (id : Nat)
  deriving DecidableEq, Repr

/-- `DFAPlan(next_dfa, dfa_pushes)`: states are arena indices. -/
structure DFAPlan where
  nextDfa : Nat
  pushes : List Nat
  deriving DecidableEq, Repr

/-- One `DFAState` object.  `nfaSet` is the represented set of NFA states
as a sorted duplicate-free list of NFA state indices (embedding of the
Python `set`); `arcs` maps grammar labels to arena indices of target
`DFAState` objects (target identity = index equality). -/
structure DFAState where
  fromRule : String
  nfaSet : List Nat
  isFinal : Bool
  arcs : List (String × Nat)
  nonterminalArcs : List (String × Nat)
  ilabelToPlan : List (TransKey × DFAPlan)
  deriving DecidableEq, Repr

instance : Inhabited DFAState :=
  ⟨{ fromRule := "", nfaSet := [], isFinal := false, arcs := [],
     nonterminalArcs := [], ilabelToPlan := [] }⟩

/-- The arena of `DFAState` objects: Python object identity is an index. -/
def Store : Type := Nat → DFAState

/-- Build a store from a list of states (index = allocation order). -/
def storeOf (l : List DFAState) : Store := fun q => l.getD q default

/-- Point update of a store (mutation of one `DFAState` object). -/
def stSet (st : Store) (q : Nat) (s : DFAState) : Store :=
  fun p => if p = q then s else st p

/-- Acceptance of a label sequence by the automaton rooted at state `q`:
follow one arc per label, accept when the reached state is final.  This is
the language of a rule's DFA-state list read off its `arcs` tables. -/
def accept (st : Store) : Nat → List String → Bool
  | q, [] => (st q).isFinal
  | q, t :: w =>
    match aget t (st q).arcs with
    | none => false
    | some q' => accept st q' w

/-! ## `DFAState.__eq__` and `_simplify_dfas` -/

/-- `DFAState.__eq__`: equal `is_final`, equal arc count, and every arc of
the left state present in the right state with the *identical* target
(`next_ is other.arcs.get(label)`). -/
def dfaEqB (st : Store) (a b : Nat) : Bool :=
  (st a).isFinal == (st b).isFinal &&
  (st a).arcs.length == (st b).arcs.length &&
  (st a).arcs.all (fun p => aget p.1 (st b).arcs == some p.2)

/-- The inner `for j in range(i + 1, len(dfas))` scan: first state of the
remaining list equal to `si`. -/
def findMerge (st : Store) (si : Nat) : List Nat → Option Nat
  | [] => none
  | j :: rest => if dfaEqB st si j then some j else findMerge st si rest

/-- Retarget every arc pointing at `old` to point at `new`
(`DFAState.unifystate`). -/
def retarget (old new : Nat) (arcs : List (String × Nat)) : List (String × Nat) :=
  arcs.map (fun p => (p.1, if p.2 = old then new else p.2))

/-- `for state in dfas: state.unifystate(old, new)` — retarget in every
state that is still on the live list. -/
def unifyLive (st : Store) (live : List Nat) (old new : Nat) : Store :=
  fun q =>
    if q ∈ live then { st q with arcs := retarget old new (st q).arcs } else st q

/-- One pass of the `_simplify_dfas` double loop.  `done` holds the list
positions already scanned (the `i` prefix), `todo` the rest.  On a merge
the equal later state is deleted from the live list, every remaining state
is retargeted, and the outer scan continues at the next position, with the
change flag set.  Fuel is consumed once per outer position, so
`todo.length` fuel always suffices. -/
def simplifyPassF : Nat → Store → List Nat → List Nat → Store × List Nat × Bool
  | 0, st, done, todo => (st, done ++ todo, false)
  | _ + 1, st, done, [] => (st, done, false)
  | f + 1, st, done, si :: rest =>
    match findMerge st si rest with
    | none => simplifyPassF f st (done ++ [si]) rest
    | some j =>
      let rest' := rest.erase j
      let live' := done ++ si :: rest'
      let st' := unifyLive st live' j si
      let r := simplifyPassF f st' (done ++ [si]) rest'
      (r.1, r.2.1, true)

/-- The `while changes:` fixed-point loop of `_simplify_dfas`: rescan all
pairs until a full pass produces no merge. -/
def simplifyLoopF : Nat → Store → List Nat → Store × List Nat
  | 0, st, live => (st, live)
  | f + 1, st, live =>
    let r := simplifyPassF live.length st [] live
    if r.2.2 = true then simplifyLoopF f r.1 r.2.1 else (r.1, r.2.1)

/-- `_simplify_dfas`: each merge strictly shrinks the live list, so
`live.length + 1` full passes always reach the fixed point. -/
def simplifyRun (st : Store) (live : List Nat) : Store × List Nat :=
  simplifyLoopF (live.length + 1) st live

/-! ## Well-formedness invariant for a rule's DFA-state list

`_make_dfas` hands `_simplify_dfas` a list of distinct state objects whose
arc dictionaries have distinct labels and whose arc targets all lie on the
list.  Minimization preserves all of this. -/

def SimpInv (st : Store) (live : List Nat) : Prop :=
  live.Nodup ∧ ∀ q ∈ live, nodupKeys (st q).arcs ∧ ∀ p ∈ (st q).arcs, p.2 ∈ live

instance (st : Store) (live : List Nat) : Decidable (SimpInv st live) := by
  unfold SimpInv; infer_instance

theorem findMerge_some {st : Store} {si j : Nat} :
    ∀ {l : List Nat}, findMerge st si l = some j → j ∈ l ∧ dfaEqB st si j = true := by
  intro l
  induction l with
  | nil => intro h; simp [findMerge] at h
  | cons a rest ih =>
    intro h
    by_cases ha : dfaEqB st si a = true
    · simp only [findMerge, if_pos ha, Option.some.injEq] at h
      subst h
      exact ⟨List.mem_cons_self _ _, ha⟩
    · simp only [findMerge, if_neg ha] at h
      rcases ih h with ⟨h1, h2⟩
      exact ⟨List.mem_cons_of_mem _ h1, h2⟩

theorem dfaEqB_isFinal {st : Store} {a b : Nat} (h : dfaEqB st a b = true) :
    (st a).isFinal = (st b).isFinal := by
  unfold dfaEqB at h
  simp only [Bool.and_eq_true, beq_iff_eq] at h
  exact h.1.1

/-- `DFAState.__eq__` implies that the two arc dictionaries are equal as
finite maps (for dictionaries, i.e. with distinct keys). -/
theorem dfaEqB_aget {st : Store} {a b : Nat}
    (ha : nodupKeys (st a).arcs) (hb : nodupKeys (st b).arcs)
    (h : dfaEqB st a b = true) (l : String) :
    aget l (st a).arcs = aget l (st b).arcs := by
  unfold dfaEqB at h
  simp only [Bool.and_eq_true, beq_iff_eq, List.all_eq_true] at h
  obtain ⟨⟨-, hlen⟩, hall⟩ := h
  cases hA : aget l (st a).arcs with
  | some v =>
    have hmem : (l, v) ∈ (st a).arcs := aget_some_mem hA
    have := hall (l, v) hmem
    exact this.symm
  | none =>
    have hnotA : l ∉ (st a).arcs.map Prod.fst := aget_eq_none.mp hA
    cases hB : aget l (st b).arcs with
    | none => rfl
    | some w =>
      exfalso
      apply hnotA
      -- key sets coincide: keys of `a` inject into keys of `b` and the
      -- counts agree, so a key of `b` is a key of `a`.
      have hsub : ((st a).arcs.map Prod.fst).toFinset ⊆ ((st b).arcs.map Prod.fst).toFinset := by
        intro k hk
        simp only [List.mem_toFinset, List.mem_map] at hk ⊢
        obtain ⟨p, hp, hpk⟩ := hk
        have := hall p hp
        refine ⟨(k, p.2), ?_, rfl⟩
        subst hpk
        exact aget_some_mem this
      have hcards : ((st b).arcs.map Prod.fst).toFinset.card ≤
          ((st a).arcs.map Prod.fst).toFinset.card := by
        rw [List.toFinset_card_of_nodup ha, List.toFinset_card_of_nodup hb]
        simp [hlen]
      have heq : ((st a).arcs.map Prod.fst).toFinset =
          ((st b).arcs.map Prod.fst).toFinset :=
        Finset.eq_of_subset_of_card_le hsub hcards
      have hkb : l ∈ ((st b).arcs.map Prod.fst).toFinset := by
        simp only [List.mem_toFinset, List.mem_map]
        exact ⟨(l, w), aget_some_mem hB, rfl⟩
      rw [← heq] at hkb
      exact List.mem_toFinset.mp hkb

theorem retarget_aget (old new : Nat) (l : String) :
    ∀ (arcs : List (String × Nat)),
      aget l (retarget old new arcs) =
        (aget l arcs).map (fun t => if t = old then new else t) := by
  intro arcs
  induction arcs with
  | nil => simp [retarget, aget]
  | cons p rest ih =>
    simp only [retarget] at ih ⊢
    by_cases hp : p.1 = l
    · simp [aget, hp]
    · simp [aget, hp, ih]

theorem retarget_keys (old new : Nat) (arcs : List (String × Nat)) :
    (retarget old new arcs).map Prod.fst = arcs.map Prod.fst := by
  induction arcs with
  | nil => rfl
  | cons p rest ih =>
    simp only [retarget, List.map_cons] at ih ⊢
    exact congrArg (p.1 :: ·) ih

theorem unifyLive_isFinal (st : Store) (live : List Nat) (old new q : Nat) :
    (unifyLive st live old new q).isFinal = (st q).isFinal := by
  unfold unifyLive
  by_cases h : q ∈ live <;> simp [h]

theorem unifyLive_arcs_mem (st : Store) {live : List Nat} {q : Nat} (h : q ∈ live)
    (old new : Nat) :
    (unifyLive st live old new q).arcs = retarget old new (st q).arcs := by
  unfold unifyLive
  simp [h]

theorem split_facts {done rest : List Nat} {si j : Nat}
    (hnd : (done ++ si :: rest).Nodup) (hj : j ∈ rest) :
    j ∉ done ∧ si ≠ j ∧ rest.Nodup := by
  rw [List.nodup_append] at hnd
  obtain ⟨-, hcons, hdisj⟩ := hnd
  rw [List.nodup_cons] at hcons
  refine ⟨fun hd => hdisj hd (List.mem_cons_of_mem _ hj), fun he => ?_, hcons.2⟩
  exact hcons.1 (he ▸ hj)

theorem mem_split_erase {done rest : List Nat} {si j : Nat}
    (hnd : (done ++ si :: rest).Nodup) (hj : j ∈ rest) (x : Nat) :
    x ∈ done ++ si :: rest.erase j ↔ x ∈ done ++ si :: rest ∧ x ≠ j := by
  obtain ⟨hjd, hsij, hndr⟩ := split_facts hnd hj
  simp only [List.mem_append, List.mem_cons, hndr.mem_erase_iff]
  by_cases hx : x = j
  · subst hx
    simp [hjd, Ne.symm hsij]
  · simp [hx]

/-- Merging one equal pair simulates: after deleting `j` (an exact
duplicate of `si` by `DFAState.__eq__`) and retargeting every live arc
from `j` to `si`, every state accepts exactly the words it accepted
before, reading `si` in place of `j`. -/
theorem merge_sim (st : Store) (done rest : List Nat) (si j : Nat)
    (hInv : SimpInv st (done ++ si :: rest)) (hj : j ∈ rest)
    (heq : dfaEqB st si j = true) :
    ∀ (w : List String) (q : Nat), q ∈ done ++ si :: rest →
      accept (unifyLive st (done ++ si :: rest.erase j) j si)
        (if q = j then si else q) w = accept st q w := by
  obtain ⟨hnd, hwf⟩ := hInv
  obtain ⟨hjd, hsij, hndr⟩ := split_facts hnd hj
  have hmemL' : ∀ x, x ∈ done ++ si :: rest.erase j ↔ x ∈ done ++ si :: rest ∧ x ≠ j :=
    mem_split_erase hnd hj
  have hsiL : si ∈ done ++ si :: rest := by simp
  have hjL : j ∈ done ++ si :: rest := by simp [hj]
  have hsiL' : si ∈ done ++ si :: rest.erase j := (hmemL' si).mpr ⟨hsiL, hsij⟩
  have hagetsj : ∀ l, aget l (st si).arcs = aget l (st j).arcs :=
    fun l => dfaEqB_aget (hwf si hsiL).1 (hwf j hjL).1 heq l
  intro w
  induction w with
  | nil =>
    intro q hq
    show (unifyLive st (done ++ si :: rest.erase j) j si _).isFinal = (st q).isFinal
    by_cases hqj : q = j
    · rw [if_pos hqj, unifyLive_isFinal, dfaEqB_isFinal heq, hqj]
    · rw [if_neg hqj, unifyLive_isFinal]
  | cons t w ih =>
    intro q hq
    by_cases hqj : q = j
    · rw [if_pos hqj, hqj]
      have harcs : (unifyLive st (done ++ si :: rest.erase j) j si si).arcs =
          retarget j si (st si).arcs := unifyLive_arcs_mem st hsiL' j si
      simp only [accept, harcs, retarget_aget, hagetsj t]
      cases hA : aget t (st j).arcs with
      | none => rfl
      | some tgt =>
        simp only [Option.map_some']
        have htgt : tgt ∈ done ++ si :: rest := (hwf j hjL).2 (t, tgt) (aget_some_mem hA)
        exact ih tgt htgt
    · rw [if_neg hqj]
      have hqL' : q ∈ done ++ si :: rest.erase j := (hmemL' q).mpr ⟨hq, hqj⟩
      have harcs : (unifyLive st (done ++ si :: rest.erase j) j si q).arcs =
          retarget j si (st q).arcs := unifyLive_arcs_mem st hqL' j si
      simp only [accept, harcs, retarget_aget]
      cases hA : aget t (st q).arcs with
      | none => rfl
      | some tgt =>
        simp only [Option.map_some']
        have htgt : tgt ∈ done ++ si :: rest := (hwf q hq).2 (t, tgt) (aget_some_mem hA)
        exact ih tgt htgt

/-- The well-formedness invariant survives one merge. -/
theorem merge_inv (st : Store) (done rest : List Nat) (si j : Nat)
    (hInv : SimpInv st (done ++ si :: rest)) (hj : j ∈ rest) :
    SimpInv (unifyLive st (done ++ si :: rest.erase j) j si)
      (done ++ si :: rest.erase j) := by
  obtain ⟨hnd, hwf⟩ := hInv
  obtain ⟨hjd, hsij, hndr⟩ := split_facts hnd hj
  have hmemL' : ∀ x, x ∈ done ++ si :: rest.erase j ↔ x ∈ done ++ si :: rest ∧ x ≠ j :=
    mem_split_erase hnd hj
  have hsiL : si ∈ done ++ si :: rest := by simp
  have hsiL' : si ∈ done ++ si :: rest.erase j := (hmemL' si).mpr ⟨hsiL, hsij⟩
  constructor
  · exact hnd.sublist (((List.erase_sublist j rest).cons₂ si).append_left done)
  · intro q hq
    have hqL : q ∈ done ++ si :: rest := ((hmemL' q).mp hq).1
    have harcs : (unifyLive st (done ++ si :: rest.erase j) j si q).arcs =
        retarget j si (st q).arcs := unifyLive_arcs_mem st hq j si
    constructor
    · show nodupKeys _
      unfold nodupKeys
      rw [harcs, retarget_keys]
      exact (hwf q hqL).1
    · intro p hp
      rw [harcs] at hp
      simp only [retarget, List.mem_map] at hp
      obtain ⟨p0, hp0, rfl⟩ := hp
      have ht : p0.2 ∈ done ++ si :: rest := (hwf q hqL).2 p0 hp0
      by_cases h : p0.2 = j
      · show (if p0.2 = j then si else p0.2) ∈ _
        rw [if_pos h]
        exact hsiL'
      · show (if p0.2 = j then si else p0.2) ∈ _
        rw [if_neg h]
        exact (hmemL' p0.2).mpr ⟨ht, h⟩

/-- Length bookkeeping for one pass: the live list never grows, and it
strictly shrinks whenever the change flag is set (each merge deletes one
state). -/
theorem pass_length : ∀ (f : Nat) (todo : List Nat) (st : Store) (done : List Nat),
    todo.length ≤ f →
    (simplifyPassF f st done todo).2.1.length ≤ done.length + todo.length ∧
    ((simplifyPassF f st done todo).2.2 = true →
      (simplifyPassF f st done todo).2.1.length < done.length + todo.length) := by
  intro f
  induction f with
  | zero =>
    intro todo st done h
    have : todo = [] := List.eq_nil_of_length_eq_zero (Nat.le_zero.mp h)
    subst this
    simp [simplifyPassF]
  | succ f ih =>
    intro todo st done h
    cases todo with
    | nil => simp [simplifyPassF]
    | cons si rest =>
      cases hF : findMerge st si rest with
      | none =>
        have hres : simplifyPassF (f + 1) st done (si :: rest) =
            simplifyPassF f st (done ++ [si]) rest := by
          simp only [simplifyPassF, hF]
        have h' : rest.length ≤ f := by
          simp only [List.length_cons] at h; omega
        obtain ⟨h1, h2⟩ := ih rest st (done ++ [si]) h'
        rw [hres]
        constructor
        · simp only [List.length_append, List.length_singleton] at h1 ⊢
          simp only [List.length_cons]
          omega
        · intro hc
          have := h2 hc
          simp only [List.length_append, List.length_singleton] at this ⊢
          simp only [List.length_cons]
          omega
      | some j =>
        obtain ⟨hjmem, -⟩ := findMerge_some hF
        have hrestne : 1 ≤ rest.length := List.length_pos.mpr (List.ne_nil_of_mem hjmem)
        have hel : (rest.erase j).length = rest.length - 1 :=
          List.length_erase_of_mem hjmem
        have hres : simplifyPassF (f + 1) st done (si :: rest) =
            (let r := simplifyPassF f (unifyLive st (done ++ si :: rest.erase j) j si)
              (done ++ [si]) (rest.erase j)
             (r.1, r.2.1, true)) := by
          simp only [simplifyPassF, hF]
        have h' : (rest.erase j).length ≤ f := by
          simp only [List.length_cons] at h; omega
        obtain ⟨h1, -⟩ := ih (rest.erase j)
          (unifyLive st (done ++ si :: rest.erase j) j si) (done ++ [si]) h'
        rw [hres]
        simp only [List.length_append, List.length_singleton] at h1
        simp only [List.length_cons]
        constructor
        · omega
        · intro _; omega

/-- A pass that reports no change did nothing: same store, same list. -/
theorem pass_nochange : ∀ (f : Nat) (todo : List Nat) (st : Store) (done : List Nat),
    todo.length ≤ f →
    (simplifyPassF f st done todo).2.2 = false →
    simplifyPassF f st done todo = (st, done ++ todo, false) := by
  intro f
  induction f with
  | zero =>
    intro todo st done h _
    have : todo = [] := List.eq_nil_of_length_eq_zero (Nat.le_zero.mp h)
    subst this
    rfl
  | succ f ih =>
    intro todo st done h hc
    cases todo with
    | nil => simp [simplifyPassF]
    | cons si rest =>
      cases hF : findMerge st si rest with
      | none =>
        have hres : simplifyPassF (f + 1) st done (si :: rest) =
            simplifyPassF f st (done ++ [si]) rest := by
          simp only [simplifyPassF, hF]
        have h' : rest.length ≤ f := by
          simp only [List.length_cons] at h; omega
        rw [hres] at hc ⊢
        rw [ih rest st (done ++ [si]) h' hc]
        simp
      | some j =>
        exfalso
        have hres : (simplifyPassF (f + 1) st done (si :: rest)).2.2 = true := by
          simp only [simplifyPassF, hF]
        rw [hres] at hc
        exact Bool.noConfusion hc

/-- Full specification of one pass of `_simplify_dfas` under the
well-formedness invariant: the already-scanned prefix is kept, survivors
come from the scanned suffix with the first element preserved, the
invariant is maintained, and every surviving state accepts exactly the
words it accepted before the pass. -/
theorem pass_spec : ∀ (f : Nat) (todo : List Nat) (st : Store) (done : List Nat),
    todo.length ≤ f → SimpInv st (done ++ todo) →
    ∃ t', (simplifyPassF f st done todo).2.1 = done ++ t' ∧
      (∀ x ∈ t', x ∈ todo) ∧
      (∀ a rest0, todo = a :: rest0 → ∃ t2, t' = a :: t2) ∧
      SimpInv (simplifyPassF f st done todo).1 (done ++ t') ∧
      (∀ q ∈ done ++ t', ∀ w, accept (simplifyPassF f st done todo).1 q w = accept st q w) := by
  intro f
  induction f with
  | zero =>
    intro todo st done h hInv
    have : todo = [] := List.eq_nil_of_length_eq_zero (Nat.le_zero.mp h)
    subst this
    exact ⟨[], rfl, by simp, by simp, hInv, fun q _ w => rfl⟩
  | succ f ih =>
    intro todo st done h hInv
    cases todo with
    | nil =>
      refine ⟨[], by simp [simplifyPassF], by simp, by simp, ?_, fun q _ w => rfl⟩
      show SimpInv st (done ++ [])
      simpa using hInv
    | cons si rest =>
      cases hF : findMerge st si rest with
      | none =>
        have hres : simplifyPassF (f + 1) st done (si :: rest) =
            simplifyPassF f st (done ++ [si]) rest := by
          simp only [simplifyPassF, hF]
        have h' : rest.length ≤ f := by
          simp only [List.length_cons] at h; omega
        have hInv' : SimpInv st ((done ++ [si]) ++ rest) := by
          rw [List.append_assoc, List.singleton_append]; exact hInv
        obtain ⟨t2, he, hsub, -, hInvR, hacc⟩ := ih rest st (done ++ [si]) h' hInv'
        rw [hres]
        refine ⟨si :: t2, ?_, ?_, ?_, ?_, ?_⟩
        · rw [he, List.append_assoc, List.singleton_append]
        · intro x hx
          rcases List.mem_cons.mp hx with hx | hx
          · exact hx ▸ List.mem_cons_self _ _
          · exact List.mem_cons_of_mem _ (hsub x hx)
        · intro a rest0 hrt
          cases hrt
          exact ⟨t2, rfl⟩
        · have hEq : done ++ si :: t2 = (done ++ [si]) ++ t2 := by
            rw [List.append_assoc, List.singleton_append]
          rw [hEq]
          exact hInvR
        · intro q hq w
          apply hacc
          rw [List.append_assoc, List.singleton_append]
          exact hq
      | some j =>
        obtain ⟨hjmem, heqb⟩ := findMerge_some hF
        have hmemL' : ∀ x, x ∈ done ++ si :: rest.erase j ↔
            x ∈ done ++ si :: rest ∧ x ≠ j := mem_split_erase hInv.1 hjmem
        have hInv1 : SimpInv (unifyLive st (done ++ si :: rest.erase j) j si)
            (done ++ si :: rest.erase j) := merge_inv st done rest si j hInv hjmem
        have hsim := merge_sim st done rest si j hInv hjmem heqb
        have hsim' : ∀ q ∈ done ++ si :: rest.erase j, ∀ w,
            accept (unifyLive st (done ++ si :: rest.erase j) j si) q w = accept st q w := by
          intro q hq w
          obtain ⟨hqL, hqj⟩ := (hmemL' q).mp hq
          have := hsim w q hqL
          rwa [if_neg hqj] at this
        have hres : simplifyPassF (f + 1) st done (si :: rest) =
            (let r := simplifyPassF f (unifyLive st (done ++ si :: rest.erase j) j si)
              (done ++ [si]) (rest.erase j)
             (r.1, r.2.1, true)) := by
          simp only [simplifyPassF, hF]
        have h' : (rest.erase j).length ≤ f := by
          have := List.length_erase_of_mem hjmem
          simp only [List.length_cons] at h
          omega
        have hInv1' : SimpInv (unifyLive st (done ++ si :: rest.erase j) j si)
            ((done ++ [si]) ++ rest.erase j) := by
          rw [List.append_assoc, List.singleton_append]; exact hInv1
        obtain ⟨t2, he, hsub, -, hInvR, hacc⟩ := ih (rest.erase j)
          (unifyLive st (done ++ si :: rest.erase j) j si) (done ++ [si]) h' hInv1'
        rw [hres]
        refine ⟨si :: t2, ?_, ?_, ?_, ?_, ?_⟩
        · show (simplifyPassF f _ _ _).2.1 = _
          rw [he, List.append_assoc, List.singleton_append]
        · intro x hx
          rcases List.mem_cons.mp hx with hx | hx
          · exact hx ▸ List.mem_cons_self _ _
          · exact List.mem_cons_of_mem _ (List.erase_subset j rest (hsub x hx))
        · intro a rest0 hrt
          cases hrt
          exact ⟨t2, rfl⟩
        · show SimpInv (simplifyPassF f _ _ _).1 _
          have hEq : done ++ si :: t2 = (done ++ [si]) ++ t2 := by
            rw [List.append_assoc, List.singleton_append]
          rw [hEq]
          exact hInvR
        · intro q hq w
          have hqL' : q ∈ done ++ si :: rest.erase j := by
            rcases List.mem_append.mp hq with hq1 | hq1
            · exact List.mem_append.mpr (Or.inl hq1)
            · rcases List.mem_cons.mp hq1 with hq2 | hq2
              · subst hq2
                exact List.mem_append.mpr (Or.inr (List.mem_cons_self _ _))
              · exact List.mem_append.mpr
                  (Or.inr (List.mem_cons_of_mem _ (hsub q hq2)))
          show accept (simplifyPassF f _ _ _).1 q w = accept st q w
          rw [← hsim' q hqL' w]
          apply hacc
          rw [List.append_assoc, List.singleton_append]
          exact hq


/-- Specification of the `while changes:` loop: survivors come from the
original list, the first state is never deleted, the invariant is
maintained, and every surviving state keeps its language. -/
theorem loop_spec : ∀ (f : Nat) (st : Store) (live : List Nat), SimpInv st live →
    (∀ x ∈ (simplifyLoopF f st live).2, x ∈ live) ∧
    (∀ a rest0, live = a :: rest0 → ∃ t2, (simplifyLoopF f st live).2 = a :: t2) ∧
    SimpInv (simplifyLoopF f st live).1 (simplifyLoopF f st live).2 ∧
    (∀ q ∈ (simplifyLoopF f st live).2, ∀ w,
      accept (simplifyLoopF f st live).1 q w = accept st q w) := by
  intro f
  induction f with
  | zero =>
    intro st live hInv
    exact ⟨fun x hx => hx, fun a r0 h => h ▸ ⟨r0, rfl⟩, hInv, fun q _ w => rfl⟩
  | succ f ih =>
    intro st live hInv
    have hInv0 : SimpInv st ([] ++ live) := hInv
    obtain ⟨t1, he, hsub, hhead, hInv1, hacc⟩ :=
      pass_spec live.length live st [] le_rfl hInv0
    have he' : (simplifyPassF live.length st [] live).2.1 = t1 := he
    cases hc : (simplifyPassF live.length st [] live).2.2 with
    | false =>
      have hres : simplifyLoopF (f + 1) st live =
          ((simplifyPassF live.length st [] live).1,
           (simplifyPassF live.length st [] live).2.1) := by
        simp only [simplifyLoopF, hc]
        rfl
      rw [hres]
      refine ⟨?_, ?_, ?_, ?_⟩
      · intro x hx
        rw [he'] at hx
        exact hsub x hx
      · intro a r0 hl
        obtain ⟨t2, ht2⟩ := hhead a r0 hl
        exact ⟨t2, by rw [he', ht2]⟩
      · show SimpInv _ _
        rw [he']
        exact hInv1
      · intro q hq w
        rw [he'] at hq
        exact hacc q hq w
    | true =>
      have hres : simplifyLoopF (f + 1) st live =
          simplifyLoopF f (simplifyPassF live.length st [] live).1
            (simplifyPassF live.length st [] live).2.1 := by
        simp only [simplifyLoopF, hc]
        rfl
      rw [hres]
      have hInv1' : SimpInv (simplifyPassF live.length st [] live).1
          (simplifyPassF live.length st [] live).2.1 := by
        rw [he']; exact hInv1
      obtain ⟨ihsub, ihhead, ihInv, ihacc⟩ := ih _ _ hInv1'
      refine ⟨?_, ?_, ihInv, ?_⟩
      · intro x hx
        have := ihsub x hx
        rw [he'] at this
        exact hsub x this
      · intro a r0 hl
        obtain ⟨t2, ht2⟩ := hhead a r0 hl
        have : (simplifyPassF live.length st [] live).2.1 = a :: t2 := by rw [he', ht2]
        exact ihhead a t2 this
      · intro q hq w
        rw [ihacc q hq w]
        apply hacc
        have := ihsub q hq
        rw [he'] at this
        exact this
/-- Fuel beyond `live.length` is irrelevant: since every changing pass
strictly shrinks the live list, the loop stabilizes. -/
theorem loop_stab : ∀ (n f g : Nat) (st : Store) (live : List Nat),
    live.length ≤ n → n < f → n < g →
    simplifyLoopF f st live = simplifyLoopF g st live := by
  intro n
  induction n using Nat.strong_induction_on with
  | _ n ihn =>
    intro f g st live hn hf hg
    cases f with
    | zero => omega
    | succ f0 =>
      cases g with
      | zero => omega
      | succ g0 =>
        cases hc : (simplifyPassF live.length st [] live).2.2 with
        | false =>
          have h1 : simplifyLoopF (f0 + 1) st live =
              ((simplifyPassF live.length st [] live).1,
               (simplifyPassF live.length st [] live).2.1) := by
            simp only [simplifyLoopF, hc]; rfl
          have h2 : simplifyLoopF (g0 + 1) st live =
              ((simplifyPassF live.length st [] live).1,
               (simplifyPassF live.length st [] live).2.1) := by
            simp only [simplifyLoopF, hc]; rfl
          rw [h1, h2]
        | true =>
          have h1 : simplifyLoopF (f0 + 1) st live =
              simplifyLoopF f0 (simplifyPassF live.length st [] live).1
                (simplifyPassF live.length st [] live).2.1 := by
            simp only [simplifyLoopF, hc]; rfl
          have h2 : simplifyLoopF (g0 + 1) st live =
              simplifyLoopF g0 (simplifyPassF live.length st [] live).1
                (simplifyPassF live.length st [] live).2.1 := by
            simp only [simplifyLoopF, hc]; rfl
          rw [h1, h2]
          have hlt : (simplifyPassF live.length st [] live).2.1.length < live.length :=
            by
              have := (pass_length live.length live st [] le_rfl).2 hc
              simpa using this
          exact ihn (simplifyPassF live.length st [] live).2.1.length
            (by omega) f0 g0 _ _ le_rfl (by omega) (by omega)

/-- With enough fuel the loop ends on a fixed point: a full pass over the
returned list produces no merge. -/
theorem loop_fix : ∀ (f : Nat) (st : Store) (live : List Nat), live.length < f →
    (simplifyPassF (simplifyLoopF f st live).2.length (simplifyLoopF f st live).1 []
      (simplifyLoopF f st live).2).2.2 = false := by
  intro f
  induction f with
  | zero => intro st live h; omega
  | succ f ih =>
    intro st live h
    cases hc : (simplifyPassF live.length st [] live).2.2 with
    | false =>
      have hnc := pass_nochange live.length live st [] le_rfl hc
      have h1 : simplifyLoopF (f + 1) st live = (st, live) := by
        simp only [simplifyLoopF, hc]
        rw [hnc]
        simp
      rw [h1]
      exact hc
    | true =>
      have h1 : simplifyLoopF (f + 1) st live =
          simplifyLoopF f (simplifyPassF live.length st [] live).1
            (simplifyPassF live.length st [] live).2.1 := by
        simp only [simplifyLoopF, hc]; rfl
      rw [h1]
      have hlt : (simplifyPassF live.length st [] live).2.1.length < live.length := by
        have := (pass_length live.length live st [] le_rfl).2 hc
        simpa using this
      exact ih _ _ (by omega)

/-! ## NFAs, epsilon-closure (`addclosure`) and `_make_dfas` -/

/-- One rule's NFA, as produced by the external EBNF front end.  State `q`
carries the ordered arc list `arcList[q]`; an arc is an optional label
(`none` = epsilon, `some lbl` = terminal or nonterminal name) with a
target state index.  Indices at or beyond `arcList.length` have no arcs. -/
structure NFA where
  ruleName : String
  arcList : List (List (Option String × Nat))
  start : Nat
  finish : Nat

def NFA.size (nfa : NFA) : Nat := nfa.arcList.length

def nfaArcs (nfa : NFA) (q : Nat) : List (Option String × Nat) :=
  nfa.arcList.getD q []

/-- Well-formed NFA: start, finish and all arc targets are valid indices. -/
def WFNFA (nfa : NFA) : Prop :=
  nfa.start < nfa.size ∧ nfa.finish < nfa.size ∧
  ∀ l ∈ nfa.arcList, ∀ p ∈ l, p.2 < nfa.size

instance (nfa : NFA) : Decidable (WFNFA nfa) := by
  unfold WFNFA; infer_instance

/-- Epsilon targets of a state, in arc order. -/
def epsTargets (nfa : NFA) (q : Nat) : List Nat :=
  (nfaArcs nfa q).filterMap (fun p => match p.1 with
    | none => some p.2
    | some _ => none)

/-- Ordered duplicate-free insertion: the embedding of `set.add`. -/
def sinsert (q : Nat) : List Nat → List Nat
  | [] => [q]
  | x :: xs =>
    if q = x then x :: xs else if q < x then q :: x :: xs else x :: sinsert q xs

/-- `addclosure` as a work list: pop a state; skip it when already in the
accumulating set, otherwise insert it and push its epsilon targets.  This
computes the set built by the source's recursive `addclosure` (which
returns immediately for a state already present, else adds it and recurses
over the unlabeled arcs). -/
def closureF : Nat → NFA → List Nat → List Nat → List Nat
  | 0, _, _, base => base
  | _ + 1, _, [], base => base
  | f + 1, nfa, q :: rest, base =>
    if q ∈ base then closureF f nfa rest base
    else closureF f nfa (epsTargets nfa q ++ rest) (sinsert q base)

/-- The largest arc count of any state, bounding work-list growth. -/
def maxDeg (nfa : NFA) : Nat :=
  ((List.range nfa.size).map (fun q => (nfaArcs nfa q).length)).foldr max 0

/-- Fuel that always suffices for `closureF` (see `closureF_stab`). -/
def closureFuel (nfa : NFA) (todo : List Nat) : Nat :=
  nfa.size * (maxDeg nfa + 1) + todo.length + 1

def closureRun (nfa : NFA) (todo base : List Nat) : List Nat :=
  closureF (closureFuel nfa todo) nfa todo base

theorem mem_sinsert (x q : Nat) :
    ∀ (l : List Nat), x ∈ sinsert q l ↔ x = q ∨ x ∈ l := by
  intro l
  induction l with
  | nil => simp [sinsert]
  | cons a t ih =>
    by_cases h1 : q = a
    · subst h1
      show x ∈ (if q = q then q :: t else if q < q then q :: q :: t
        else q :: sinsert q t) ↔ _
      rw [if_pos rfl]
      simp only [List.mem_cons]
      tauto
    · by_cases h2 : q < a
      · simp only [sinsert, if_neg h1, if_pos h2, List.mem_cons]
      · simp only [sinsert, if_neg h1, if_neg h2, List.mem_cons, ih]
        tauto

theorem sinsert_toFinset (q : Nat) :
    ∀ (l : List Nat), (sinsert q l).toFinset = insert q l.toFinset := by
  intro l
  induction l with
  | nil => simp [sinsert]
  | cons a t ih =>
    by_cases h1 : q = a
    · subst h1
      simp [sinsert]
    · by_cases h2 : q < a
      · simp [sinsert, h1, h2]
      · simp only [sinsert, if_neg h1, if_neg h2, List.toFinset_cons, ih]
        rw [Finset.Insert.comm]

theorem le_foldr_max (x : Nat) :
    ∀ (l : List Nat), x ∈ l → x ≤ l.foldr max 0 := by
  intro l
  induction l with
  | nil => intro h; simp at h
  | cons a t ih =>
    intro h
    rcases List.mem_cons.mp h with h | h
    · subst h; exact le_max_left _ _
    · exact le_trans (ih h) (le_max_right _ _)

theorem arcs_le_maxDeg (nfa : NFA) {q : Nat} (h : q < nfa.size) :
    (nfaArcs nfa q).length ≤ maxDeg nfa := by
  apply le_foldr_max
  exact List.mem_map_of_mem _ (List.mem_range.mpr h)

theorem nfaArcs_oob (nfa : NFA) {q : Nat} (h : nfa.size ≤ q) :
    nfaArcs nfa q = [] := by
  unfold nfaArcs
  exact List.getD_eq_default _ _ h

/-- `addclosure` terminates: past the explicit potential
(unvisited-states times maximal degree plus work-list length) the fuel is
irrelevant, because a state already in the set is skipped and any other
state is inserted before its epsilon arcs are explored, so the set of
unvisited states strictly shrinks. -/
theorem closureF_stab (nfa : NFA) :
    ∀ (k f g : Nat) (todo base : List Nat),
      (Finset.range nfa.size \ base.toFinset).card * (maxDeg nfa + 1) + todo.length ≤ k →
      k < f → k < g →
      closureF f nfa todo base = closureF g nfa todo base := by
  intro k
  induction k using Nat.strong_induction_on with
  | _ k ihk =>
    intro f g todo base hk hf hg
    cases todo with
    | nil =>
      cases f with
      | zero => omega
      | succ f0 =>
        cases g with
        | zero => omega
        | succ g0 => rfl
    | cons q rest =>
      simp only [List.length_cons] at hk
      cases f with
      | zero => omega
      | succ f0 =>
        cases g with
        | zero => omega
        | succ g0 =>
          by_cases hq : q ∈ base
          · simp only [closureF, if_pos hq]
            exact ihk (k - 1) (by omega) f0 g0 rest base (by omega) (by omega) (by omega)
          · simp only [closureF, if_neg hq]
            by_cases hqn : q < nfa.size
            · -- a genuinely new state: the unvisited count drops by one
              have hmem : q ∈ Finset.range nfa.size \ base.toFinset := by
                simp [Finset.mem_sdiff, Finset.mem_range, hqn, hq]
              have hcard : (Finset.range nfa.size \ (sinsert q base).toFinset).card + 1 =
                  (Finset.range nfa.size \ base.toFinset).card := by
                rw [sinsert_toFinset, Finset.sdiff_insert]
                exact Finset.card_erase_add_one hmem
              have heps : (epsTargets nfa q).length ≤ maxDeg nfa := by
                unfold epsTargets
                exact le_trans (List.length_filterMap_le _ _) (arcs_le_maxDeg nfa hqn)
              have hexp : (Finset.range nfa.size \ base.toFinset).card * (maxDeg nfa + 1) =
                  (Finset.range nfa.size \ (sinsert q base).toFinset).card *
                    (maxDeg nfa + 1) + (maxDeg nfa + 1) := by
                rw [← hcard]; ring
              rw [hexp] at hk
              apply ihk (k - 2) (by omega) f0 g0 _ _
              · simp only [List.length_append]
                omega
              · omega
              · omega
            · -- out-of-range index: no arcs, the set gains only junk
              have heps : epsTargets nfa q = [] := by
                unfold epsTargets
                rw [nfaArcs_oob nfa (Nat.le_of_not_lt hqn)]
                rfl
              have hsd : Finset.range nfa.size \ (sinsert q base).toFinset =
                  Finset.range nfa.size \ base.toFinset := by
                rw [sinsert_toFinset, Finset.sdiff_insert, Finset.erase_eq_of_not_mem]
                simp only [Finset.mem_sdiff, Finset.mem_range]
                intro hc
                exact absurd hc.1 hqn
              rw [heps]
              apply ihk (k - 1) (by omega) f0 g0 _ _
              · rw [hsd]
                simp only [List.nil_append]
                omega
              · omega
              · omega
/-! ## `_make_dfas`: powerset construction -/

/-- `DFAState.__init__`: `is_final` is computed from membership of the
rule's NFA final state in the represented set; the arc dictionaries start
empty. -/
def mkDFAState (rule : String) (s : List Nat) (finish : Nat) : DFAState :=
  { fromRule := rule, nfaSet := s, isFinal := decide (finish ∈ s), arcs := [],
    nonterminalArcs := [], ilabelToPlan := [] }

/-- Group the labeled arcs of all member NFA states by label, closing each
label's target set under epsilon (`arcs.setdefault(label, set())` followed
by `addclosure(nfa_arc.next, nfa_set)`). -/
def groupArcs (nfa : NFA) (s : List Nat) : List (String × List Nat) :=
  s.foldl (fun acc q =>
    (nfaArcs nfa q).foldl (fun acc2 p =>
      match p.1 with
      | none => acc2
      | some lbl => aset lbl (closureRun nfa [p.2] ((aget lbl acc2).getD [])) acc2) acc) []

/-- `for nested_state in states: if nested_state.nfa_set == nfa_set: break`
— index of the first existing DFA state with the structurally equal NFA
set. -/
def findEqIdx (s : List Nat) : List DFAState → Option Nat
  | [] => none
  | st0 :: rest =>
    if st0.nfaSet = s then some 0 else (findEqIdx s rest).map (· + 1)

/-- One grouped label of the inner loop of `_make_dfas`: reuse the first
existing DFA state with the structurally equal NFA set, or allocate a new
`DFAState` at the end of the list; either way record the label arc
(`state.add_arc(nested_state, nonterminal_or_string)`). -/
def makeStep (nfa : NFA) (acc : List DFAState × List (String × Nat))
    (g : String × List Nat) : List DFAState × List (String × Nat) :=
  match findEqIdx g.2 acc.1 with
  | some i => (acc.1, acc.2 ++ [(g.1, i)])
  | none => (acc.1 ++ [mkDFAState nfa.ruleName g.2 nfa.finish],
             acc.2 ++ [(g.1, acc.1.length)])

/-- One whole iteration of the `_make_dfas` work list at position `k`:
fold `makeStep` over the grouped labels of the `k`-th state and record the
collected label arcs on that state. -/
def makeIter (nfa : NFA) (states : List DFAState) (k : Nat) : List DFAState :=
  let r := (groupArcs nfa ((states.getD k default).nfaSet)).foldl (makeStep nfa) (states, [])
  r.1.set k { r.1.getD k default with arcs := (r.1.getD k default).arcs ++ r.2 }

/-- The work-list loop of `_make_dfas` (`for state in states`, with
`states` growing while iterating). -/
def makeDfasLoop : Nat → NFA → List DFAState → Nat → List DFAState
  | 0, _, states, _ => states
  | f + 1, nfa, states, k =>
    if k < states.length then makeDfasLoop f nfa (makeIter nfa states k) (k + 1)
    else states

/-- `_make_dfas`: start from the epsilon-closure of the rule's NFA start
state and run the work list.  `2 ^ size + 1` iterations always suffice
because the represented NFA sets are pairwise distinct subsets of the
state space. -/
def makeDfas (nfa : NFA) : List DFAState :=
  makeDfasLoop (2 ^ nfa.size + 1) nfa
    [mkDFAState nfa.ruleName (closureRun nfa [nfa.start] []) nfa.finish] 0

theorem findEqIdx_none {s : List Nat} :
    ∀ {l : List DFAState}, findEqIdx s l = none → ∀ st0 ∈ l, st0.nfaSet ≠ s := by
  intro l
  induction l with
  | nil => intro _ st0 h; simp at h
  | cons a t ih =>
    intro h st0 hmem
    by_cases ha : a.nfaSet = s
    · simp [findEqIdx, ha] at h
    · simp only [findEqIdx, if_neg ha, Option.map_eq_none'] at h
      rcases List.mem_cons.mp hmem with hm | hm
      · exact hm ▸ ha
      · exact ih h st0 hm

theorem map_nfaSet_set :
    ∀ (l : List DFAState) (k : Nat) (s : DFAState),
      s.nfaSet = (l.getD k default).nfaSet →
      (l.set k s).map (fun x => x.nfaSet) = l.map (fun x => x.nfaSet) := by
  intro l
  induction l with
  | nil => intro k s _; rfl
  | cons a t ih =>
    intro k s hs
    cases k with
    | zero =>
      simp only [List.getD_cons_zero] at hs
      simp [List.set, hs]
    | succ k0 =>
      simp only [List.getD_cons_succ] at hs
      simp only [List.set, List.map_cons]
      rw [ih k0 s hs]

/-- The inner fold of one `_make_dfas` iteration only appends states: a
fresh state is allocated only when no existing state has the structurally
equal NFA set, so finality-by-membership and pairwise distinctness of the
represented sets are maintained. -/
theorem makeFold_inv (nfa : NFA) :
    ∀ (grouped : List (String × List Nat)) (acc : List DFAState × List (String × Nat)),
      (∀ s ∈ acc.1, s.isFinal = decide (nfa.finish ∈ s.nfaSet)) →
      (acc.1.map (fun x => x.nfaSet)).Nodup →
      ∃ ext, (grouped.foldl (makeStep nfa) acc).1 = acc.1 ++ ext ∧
        (∀ s ∈ acc.1 ++ ext, s.isFinal = decide (nfa.finish ∈ s.nfaSet)) ∧
        ((acc.1 ++ ext).map (fun x => x.nfaSet)).Nodup := by
  intro grouped
  induction grouped with
  | nil =>
    intro acc h1 h2
    exact ⟨[], by simp, by simpa using h1, by simpa using h2⟩
  | cons g gs ih =>
    intro acc h1 h2
    simp only [List.foldl_cons]
    cases hF : findEqIdx g.2 acc.1 with
    | some i =>
      have hstep : makeStep nfa acc g = (acc.1, acc.2 ++ [(g.1, i)]) := by
        simp only [makeStep, hF]
      rw [hstep]
      exact ih (acc.1, acc.2 ++ [(g.1, i)]) h1 h2
    | none =>
      have hstep : makeStep nfa acc g =
          (acc.1 ++ [mkDFAState nfa.ruleName g.2 nfa.finish],
           acc.2 ++ [(g.1, acc.1.length)]) := by
        simp only [makeStep, hF]
      rw [hstep]
      have hnew1 : ∀ s ∈ acc.1 ++ [mkDFAState nfa.ruleName g.2 nfa.finish],
          s.isFinal = decide (nfa.finish ∈ s.nfaSet) := by
        intro s hs
        rcases List.mem_append.mp hs with hs | hs
        · exact h1 s hs
        · simp only [List.mem_singleton] at hs
          subst hs
          rfl
      have hnew2 : ((acc.1 ++ [mkDFAState nfa.ruleName g.2 nfa.finish]).map
          (fun x => x.nfaSet)).Nodup := by
        rw [List.map_append, List.nodup_append]
        refine ⟨h2, by simp, ?_⟩
        intro a ha hb
        simp only [List.map_cons, List.map_nil, List.mem_singleton] at hb
        simp only [List.mem_map] at ha
        obtain ⟨s0, hs0, rfl⟩ := ha
        exact findEqIdx_none hF s0 hs0 (by simpa [mkDFAState] using hb)
      obtain ⟨ext, hext, hp1, hp2⟩ := ih
        (acc.1 ++ [mkDFAState nfa.ruleName g.2 nfa.finish],
         acc.2 ++ [(g.1, acc.1.length)]) hnew1 hnew2
      refine ⟨[mkDFAState nfa.ruleName g.2 nfa.finish] ++ ext, ?_, ?_, ?_⟩
      · rw [hext, List.append_assoc]
      · rw [← List.append_assoc]; exact hp1
      · rw [← List.append_assoc]; exact hp2

/-- One `_make_dfas` iteration maintains the invariants and preserves the
represented set of every already-allocated state (it only adds arcs to the
`k`-th state and appends fresh states). -/
theorem makeIter_inv (nfa : NFA) (states : List DFAState) (k : Nat)
    (h1 : ∀ s ∈ states, s.isFinal = decide (nfa.finish ∈ s.nfaSet))
    (h2 : (states.map (fun x => x.nfaSet)).Nodup) :
    (∀ s ∈ makeIter nfa states k, s.isFinal = decide (nfa.finish ∈ s.nfaSet)) ∧
    ((makeIter nfa states k).map (fun x => x.nfaSet)).Nodup ∧
    ∃ ext, (makeIter nfa states k).map (fun x => x.nfaSet) =
      states.map (fun x => x.nfaSet) ++ ext := by
  obtain ⟨ext, hext, hp1, hp2⟩ := makeFold_inv nfa
    (groupArcs nfa ((states.getD k default).nfaSet)) (states, []) h1 h2
  set r := (groupArcs nfa ((states.getD k default).nfaSet)).foldl
    (makeStep nfa) (states, []) with hr
  have hiter : makeIter nfa states k =
      r.1.set k { r.1.getD k default with arcs := (r.1.getD k default).arcs ++ r.2 } := by
    simp only [makeIter, hr]
  have hset : (r.1.set k { r.1.getD k default with
      arcs := (r.1.getD k default).arcs ++ r.2 }).map (fun x => x.nfaSet) =
      r.1.map (fun x => x.nfaSet) :=
    map_nfaSet_set r.1 k _ rfl
  rw [hiter]
  refine ⟨?_, ?_, ?_⟩
  · intro s hs
    rcases List.mem_or_eq_of_mem_set hs with hs | hs
    · rw [hext] at hs
      exact hp1 s hs
    · subst hs
      show (r.1.getD k default).isFinal = decide (nfa.finish ∈ (r.1.getD k default).nfaSet)
      by_cases hkr : k < r.1.length
      · have hmem : r.1.getD k default ∈ r.1 := by
          rw [List.getD_eq_getElem?_getD, List.getElem?_eq_getElem hkr]
          exact List.getElem_mem hkr
        exact hp1 (r.1.getD k default) (by rw [← hext]; exact hmem)
      · rw [List.getD_eq_default _ _ (Nat.le_of_not_lt hkr)]
        rfl
  · rw [hset, hext]
    exact hp2
  · rw [hset, hext]
    exact ⟨ext.map (fun x => x.nfaSet), by rw [List.map_append]⟩

/-- The `_make_dfas` work-list loop maintains: every state's finality is
membership of the rule's final NFA state in its set, the represented sets
are pairwise distinct, and the represented sets of already-allocated
states (in particular the entry state's) never change. -/
theorem makeDfasLoop_inv : ∀ (f : Nat) (nfa : NFA) (states : List DFAState) (k : Nat),
    (∀ s ∈ states, s.isFinal = decide (nfa.finish ∈ s.nfaSet)) →
    (states.map (fun x => x.nfaSet)).Nodup →
    (∀ s ∈ makeDfasLoop f nfa states k, s.isFinal = decide (nfa.finish ∈ s.nfaSet)) ∧
    ((makeDfasLoop f nfa states k).map (fun x => x.nfaSet)).Nodup ∧
    ∃ ext, (makeDfasLoop f nfa states k).map (fun x => x.nfaSet) =
      states.map (fun x => x.nfaSet) ++ ext := by
  intro f
  induction f with
  | zero =>
    intro nfa states k h1 h2
    exact ⟨h1, h2, [], by simp [makeDfasLoop]⟩
  | succ f ih =>
    intro nfa states k h1 h2
    by_cases hk : k < states.length
    · have hres : makeDfasLoop (f + 1) nfa states k =
          makeDfasLoop f nfa (makeIter nfa states k) (k + 1) := by
        simp only [makeDfasLoop, if_pos hk]
      obtain ⟨i1, i2, ext1, hext1⟩ := makeIter_inv nfa states k h1 h2
      obtain ⟨q1, q2, ext2, hext2⟩ := ih nfa (makeIter nfa states k) (k + 1) i1 i2
      rw [hres]
      refine ⟨q1, q2, ext1 ++ ext2, ?_⟩
      rw [hext2, hext1, List.append_assoc]
    · have hres : makeDfasLoop (f + 1) nfa states k = states := by
        simp only [makeDfasLoop, if_neg hk]
      rw [hres]
      exact ⟨h1, h2, [], by simp⟩

/-! ## `generate_grammar`: classification, interning, FIRST plans -/

/-- Grammar-definition errors (`ValueError` in the source).  The ambiguity
error carries the rule, the conflicting transition, the new origin rule
(`nonterminal2`) and the origin read from the existing push chain
(`check[-1].from_rule`). -/
inductive PgenError : Type
  | leftRecursion (rule : String)
  | ambiguity (rule : String) (transition : TransKey) (newOrigin oldOrigin : String)
  | fuelExhausted
  deriving DecidableEq, Repr

/-- `_make_transition`: an alphabetic label resolves through the token
namespace; any other label is a quoted literal — decode it and intern it
in the shared reserved-string table, creating a new `ReservedString` only
on the first occurrence of the decoded value. -/
def makeTransition (ns : String → Nat) (decode : String → String)
    (tb : List (String × Nat)) (label : String) : TransKey × List (String × Nat) :=
  if (label.toList.headD '!').isAlpha then
    (TransKey.token (ns label), tb)
  else
    match aget (decode label) tb with
    | some i => (TransKey.reserved i, tb)
    | none => (TransKey.reserved tb.length, aset (decode label) tb.length tb)

/-- Classify the arcs of one `DFAState` (`generate_grammar`'s inner loop):
a label that is a key of the rule table becomes a nonterminal arc, any
other label resolves to a transition key and is recorded as the direct
plan `DFAPlan(next_dfa)` with no pushes. -/
def classifyState (ruleNames : List String) (ns : String → Nat)
    (decode : String → String) (st : Store) (tb : List (String × Nat)) (q : Nat) :
    Store × List (String × Nat) :=
  let res := (st q).arcs.foldl
    (fun (acc : List (String × Nat) × List (TransKey × DFAPlan) × List (String × Nat)) p =>
      if p.1 ∈ ruleNames then (aset p.1 p.2 acc.1, acc.2.1, acc.2.2)
      else
        let kt := makeTransition ns decode acc.2.2 p.1
        (acc.1, aset kt.1 (DFAPlan.mk p.2 []) acc.2.1, kt.2))
    ((st q).nonterminalArcs, (st q).ilabelToPlan, tb)
  (stSet st q { st q with nonterminalArcs := res.1, ilabelToPlan := res.2.1 }, res.2.2)

/-- The classification pass over every DFA state of every rule, threading
the single shared reserved-string table. -/
def classifyAll (ruleNames : List String) (ns : String → Nat) (decode : String → String)
    (tbl : List (String × List Nat)) (st : Store) (tb : List (String × Nat)) :
    Store × List (String × Nat) :=
  tbl.foldl (fun acc e =>
    e.2.foldl (fun acc2 q => classifyState ruleNames ns decode acc2.1 acc2.2 q) acc) (st, tb)

/-- The ambiguity check and chain extension of `_calculate_first_plans`:
for each `(transition, pushes)` of the callee's first plans, fail if the
transition is already present in the rule's accumulating map (reporting
the rule, the transition, the new origin and the rule of the last state of
the existing chain), else record the chain `[next_] + pushes`. -/
def combineFirst (st : Store) (rule nt2 : String) (next : Nat) :
    List (TransKey × List Nat) → List (TransKey × List Nat) →
    Except PgenError (List (TransKey × List Nat))
  | [], acc => .ok acc
  | (t, pushes) :: rest, acc =>
    match aget t acc with
    | some check =>
      .error (.ambiguity rule t nt2 ((st (check.getLastD 0)).fromRule))
    | none => combineFirst st rule nt2 next rest (aset t (next :: pushes) acc)

/-- The loop over the entry state's nonterminal arcs: look the callee up
in the memo table; a missing entry (`KeyError`) triggers the recursive
call `recurse`, the sentinel `none` raises the left-recursion error naming
the rule in progress, a computed map is combined into the accumulator. -/
def ntLoopWith
    (recurse : List (String × Option (List (TransKey × List Nat))) → String →
      Except PgenError
        (List (String × Option (List (TransKey × List Nat))) × List (TransKey × List Nat)))
    (st : Store) (rule : String) :
    List (String × Nat) → List (String × Option (List (TransKey × List Nat))) →
    List (TransKey × List Nat) →
    Except PgenError
      (List (String × Option (List (TransKey × List Nat))) × List (TransKey × List Nat))
  | [], memo, acc => .ok (memo, acc)
  | (nt2, next) :: rest, memo, acc =>
    match aget nt2 memo with
    | none =>
      match recurse memo nt2 with
      | .error e => .error e
      | .ok (memo2, fp2) =>
        match combineFirst st rule nt2 next fp2 acc with
        | .error e => .error e
        | .ok acc2 => ntLoopWith recurse st rule rest memo2 acc2
    | some none => .error (.leftRecursion rule)
    | some (some fp2) =>
      match combineFirst st rule nt2 next fp2 acc with
      | .error e => .error e
      | .ok acc2 => ntLoopWith recurse st rule rest memo acc2

/-- `_calculate_first_plans`: set the sentinel, walk the nonterminal arcs
of the rule's entry DFA state (index 0), then add the direct terminal
plans as chains of length one, memoize and return.  Fuel bounds the
recursion depth; `rules + 1` always suffices thanks to the sentinel. -/
def calcFirstPlansF : Nat → List (String × List Nat) → Store →
    List (String × Option (List (TransKey × List Nat))) → String →
    Except PgenError
      (List (String × Option (List (TransKey × List Nat))) × List (TransKey × List Nat))
  | 0, _, _, _, _ => .error .fuelExhausted
  | f + 1, tbl, st, memo, rule =>
    match ntLoopWith (fun m r => calcFirstPlansF f tbl st m r) st rule
        (st (((aget rule tbl).getD []).headD 0)).nonterminalArcs (aset rule none memo) [] with
    | .error e => .error e
    | .ok (memo2, acc) =>
      let acc2 := (st (((aget rule tbl).getD []).headD 0)).ilabelToPlan.foldl
        (fun a p => aset p.1 [p.2.nextDfa] a) acc
      .ok (aset rule (some acc2) memo2, acc2)

/-- The driver loop of `_calculate_tree_traversal`: rules sorted by name,
computed only when not memoized yet. -/
def driverLoop (tbl : List (String × List Nat)) (st : Store) :
    List String → List (String × Option (List (TransKey × List Nat))) →
    Except PgenError (List (String × Option (List (TransKey × List Nat))))
  | [], memo => .ok memo
  | nt :: rest, memo =>
    match aget nt memo with
    | some _ => driverLoop tbl st rest memo
    | none =>
      match calcFirstPlansF (tbl.length + 1) tbl st memo nt with
      | .error e => .error e
      | .ok (memo2, _) => driverLoop tbl st rest memo2

/-- The first plans memoized for a rule after the driver has run. -/
def fpOf (memo : List (String × Option (List (TransKey × List Nat)))) (nt : String) :
    List (TransKey × List Nat) :=
  ((aget nt memo).getD none).getD []

/-- The second pass of `_calculate_tree_traversal` at one DFA state:
expand every nonterminal arc through the callee's first plans into direct
`ilabel_to_plan[transition] = DFAPlan(next_dfa, pushes)` entries. -/
def installState (memo : List (String × Option (List (TransKey × List Nat))))
    (st : Store) (q : Nat) : Store :=
  let il := (st q).nonterminalArcs.foldl (fun il p =>
    (fpOf memo p.1).foldl (fun il2 tp => aset tp.1 (DFAPlan.mk p.2 tp.2) il2) il)
    (st q).ilabelToPlan
  stSet st q { st q with ilabelToPlan := il }

/-- The second pass over every DFA state of every rule. -/
def installAll (memo : List (String × Option (List (TransKey × List Nat))))
    (tbl : List (String × List Nat)) (st : Store) : Store :=
  tbl.foldl (fun acc e => e.2.foldl (fun acc2 q => installState memo acc2 q) acc) st

/-- Lexicographic comparison of strings by code point, the order used by
`nonterminals.sort()`. -/
def charListLe : List Char → List Char → Bool
  | [], _ => true
  | _ :: _, [] => false
  | c :: cs, d :: ds =>
    if c.toNat < d.toNat then true
    else if d.toNat < c.toNat then false
    else charListLe cs ds

def strLeB (a b : String) : Bool := charListLe a.data b.data

def sortInsert (x : String) : List String → List String
  | [] => [x]
  | y :: ys => if strLeB x y then x :: y :: ys else y :: sortInsert x ys

/-- `nonterminals.sort()`: insertion sort by name. -/
def sortNames : List String → List String
  | [] => []
  | x :: xs => sortInsert x (sortNames xs)

/-- `_calculate_tree_traversal`: run the FIRST-plan computation for every
rule (sorted by name), then install the expanded plans at every state. -/
def calcTreeTraversal (tbl : List (String × List Nat)) (st : Store) :
    Except PgenError Store :=
  match driverLoop tbl st (sortNames (tbl.map Prod.fst)) [] with
  | .error e => .error e
  | .ok memo => .ok (installAll memo tbl st)

/-- The output `Grammar`. -/
structure GrammarT where
  startNonterminal : String
  ruleTable : List (String × List Nat)
  store : Store
  reservedSyntaxStrings : List (String × Nat)

/-- Shift a locally-indexed state into the global arena at offset `o`. -/
def shiftState (o : Nat) (s : DFAState) : DFAState :=
  { s with arcs := s.arcs.map (fun p => (p.1, p.2 + o)) }

/-- The first loop of `generate_grammar`: per rule, powerset construction
(`_make_dfas`) followed by in-place minimization (`_simplify_dfas`);
the rule's surviving states are entered into the rule table. -/
def buildRules : List NFA → List DFAState → List (String × List Nat) →
    List DFAState × List (String × List Nat)
  | [], arena, tbl => (arena, tbl)
  | nfa :: rest, arena, tbl =>
    let local0 := makeDfas nfa
    let sr := simplifyRun (storeOf local0) (List.range local0.length)
    buildRules rest
      (arena ++ ((List.range local0.length).map sr.1).map (shiftState arena.length))
      (aset nfa.ruleName (sr.2.map (fun q => q + arena.length)) tbl)

/-- `generate_grammar`: build and minimize every rule's DFA, classify all
arcs (interning reserved strings in one shared table), run the tree
traversal, and assemble the `Grammar`. -/
def generateGrammar (ns : String → Nat) (decode : String → String) (nfas : List NFA) :
    Except PgenError GrammarT :=
  let br := buildRules nfas [] []
  let cl := classifyAll (br.2.map Prod.fst) ns decode br.2 (storeOf br.1) []
  match calcTreeTraversal br.2 cl.1 with
  | .error e => .error e
  | .ok st2 =>
    .ok { startNonterminal := (nfas.headD ⟨"", [], 0, 0⟩).ruleName,
          ruleTable := br.2, store := st2, reservedSyntaxStrings := cl.2 }

/-- The error of a failed compilation, if any. -/
def grammarErr : Except PgenError GrammarT → Option PgenError
  | .error e => some e
  | .ok _ => none

/-- Entry-state index of a rule (`nonterminal_to_dfas[rule][0]`). -/
def entryOf (g : GrammarT) (rule : String) : Nat :=
  ((aget rule g.ruleTable).getD []).headD 0

/-- The installed plan of the rule's entry state for one transition key. -/
def planAt (g : GrammarT) (rule : String) (k : TransKey) : Option DFAPlan :=
  aget k (g.store (entryOf g rule)).ilabelToPlan

/-! ## Example grammars

The EBNF-to-NFA front end is outside this module (spec §1: an external
collaborator that yields, per rule, a `(start, final)` NFA whose arcs are
labeled either with `None` (epsilon) or with a terminal/nonterminal name
string).  The example NFAs below are modelled from the spec accordingly:
alternation is epsilon-branching from the start state and epsilon-joining
into the final state, sequencing is a chain of labeled arcs. -/

/-- A decoded-literal function standing in for the external
`literal_eval` (spec §1: a one-line utility, not specified further):
strip the surrounding quotes. -/
def decodeLit (s : String) : String := String.mk (s.data.drop 1).dropLast

/-- A concrete token namespace for the examples. -/
def nsEx (s : String) : Nat :=
  if s = "NUMBER" then 1 else if s = "NEWLINE" then 2 else 0

/-- Modelled from the spec: front-end NFA for the rule `a: a 'x' | 'y'`. -/
def nfaLeftRec : NFA :=
  { ruleName := "a",
    arcList := [[(none, 1), (none, 4)], [(some "a", 2)], [(some "'x'", 3)],
      [(none, 6)], [(some "'y'", 5)], [(none, 6)], []],
    start := 0, finish := 6 }

/-- Modelled from the spec: front-end NFA for `a: b | c`. -/
def nfaAmbA : NFA :=
  { ruleName := "a",
    arcList := [[(none, 1), (none, 3)], [(some "b", 2)], [(none, 5)],
      [(some "c", 4)], [(none, 5)], []],
    start := 0, finish := 5 }

/-- Modelled from the spec: front-end NFA for `b: 'x'`. -/
def nfaAmbB : NFA :=
  { ruleName := "b", arcList := [[(some "'x'", 1)], []], start := 0, finish := 1 }

/-- Modelled from the spec: front-end NFA for `c: 'x'`. -/
def nfaAmbC : NFA :=
  { ruleName := "c", arcList := [[(some "'x'", 1)], []], start := 0, finish := 1 }

/-- Modelled from the spec: front-end NFA for `stmt: expr NEWLINE`. -/
def nfaStmt : NFA :=
  { ruleName := "stmt",
    arcList := [[(some "expr", 1)], [(some "NEWLINE", 2)], []],
    start := 0, finish := 2 }

/-- Modelled from the spec: front-end NFA for `expr: NUMBER`. -/
def nfaExpr : NFA :=
  { ruleName := "expr", arcList := [[(some "NUMBER", 1)], []], start := 0, finish := 1 }

/-- Modelled from the spec: front-end NFA for `r: b | 'x'`. -/
def nfaOvrR : NFA :=
  { ruleName := "r",
    arcList := [[(none, 1), (none, 3)], [(some "b", 2)], [(none, 5)],
      [(some "'x'", 4)], [(none, 5)], []],
    start := 0, finish := 5 }

/-- Modelled from the spec: front-end NFA for `b: 'x'` (overwrite test). -/
def nfaOvrB : NFA :=
  { ruleName := "b", arcList := [[(some "'x'", 1)], []], start := 0, finish := 1 }

/-- Modelled from the spec: front-end NFA for `s: 'a' ('x' | c)`. -/
def nfaSeqS : NFA :=
  { ruleName := "s",
    arcList := [[(some "'a'", 1)], [(none, 2), (none, 4)], [(some "'x'", 3)],
      [(none, 6)], [(some "c", 5)], [(none, 6)], []],
    start := 0, finish := 6 }

/-- Modelled from the spec: front-end NFA for `c: 'x' 'y'`. -/
def nfaSeqC : NFA :=
  { ruleName := "c",
    arcList := [[(some "'x'", 1)], [(some "'y'", 2)], []], start := 0, finish := 2 }

/-- Modelled from the spec: front-end NFA for `p: '+'`. -/
def nfaPlusP : NFA :=
  { ruleName := "p", arcList := [[(some "'+'", 1)], []], start := 0, finish := 1 }

/-- Modelled from the spec: front-end NFA for `q: '+'`. -/
def nfaPlusQ : NFA :=
  { ruleName := "q", arcList := [[(some "'+'", 1)], []], start := 0, finish := 1 }

/-! ## Claim theorems -/

/-- A small concrete automaton used to witness the minimizer theorems:
state 1 and state 2 are `__eq__`-equal (both final, no arcs), so
`_simplify_dfas` merges them. -/
def stW : Store := storeOf
  [{ fromRule := "w", nfaSet := [0], isFinal := false,
     arcs := [("a", 1), ("b", 2)], nonterminalArcs := [], ilabelToPlan := [] },
   { fromRule := "w", nfaSet := [1], isFinal := true, arcs := [],
     nonterminalArcs := [], ilabelToPlan := [] },
   { fromRule := "w", nfaSet := [2], isFinal := true, arcs := [],
     nonterminalArcs := [], ilabelToPlan := [] }]

/-- Claim C1: DFA minimization preserves the accepted language.  For any
rule's DFA-state list (a store with a live list satisfying the
construction invariant: distinct states, dictionary arc labels, arcs
staying on the list), and for every input token sequence, the automaton
accepts the sequence after `_simplify_dfas` — which only ever merges a
pair of `DFAState.__eq__`-equal states (matching `is_final`, arcs equal by
label and target identity), deleting the later state and retargeting every
arc that pointed at it to the earlier one — exactly when it accepted the
sequence before. -/
theorem c1_minimization_preserves_language (st : Store) (live : List Nat)
    (hInv : SimpInv st live) (hne : live ≠ []) (w : List String) :
    accept (simplifyRun st live).1 ((simplifyRun st live).2.headD 0) w =
      accept st (live.headD 0) w := by
  cases live with
  | nil => exact absurd rfl hne
  | cons a rest0 =>
    obtain ⟨hsub, hhead, hInvF, hacc⟩ :=
      loop_spec ((a :: rest0).length + 1) st (a :: rest0) hInv
    obtain ⟨t2, ht2⟩ := hhead a rest0 rfl
    show accept (simplifyLoopF ((a :: rest0).length + 1) st (a :: rest0)).1
      ((simplifyLoopF ((a :: rest0).length + 1) st (a :: rest0)).2.headD 0) w = _
    rw [ht2]
    simp only [List.headD_cons]
    exact hacc a (by rw [ht2]; exact List.mem_cons_self _ _) w

theorem c1_witness :
    accept (simplifyRun stW [0, 1, 2]).1 ((simplifyRun stW [0, 1, 2]).2.headD 0) ["a"] =
      accept stW ([0, 1, 2].headD 0) ["a"] :=
  c1_minimization_preserves_language stW [0, 1, 2] (by decide) (by decide) ["a"]

/-- Claim C8: after a pass containing a merge, `_simplify_dfas` scans all
pairs again from the start (the change flag restarts the double loop on
the merged list), and it returns only at a fixed point: a full pass over
the returned list produces no merge. -/
theorem c8_minimizer_restart (st : Store) (live : List Nat) :
    ((simplifyPassF live.length st [] live).2.2 = true →
      simplifyRun st live =
        simplifyRun (simplifyPassF live.length st [] live).1
          (simplifyPassF live.length st [] live).2.1) ∧
    (simplifyPassF (simplifyRun st live).2.length (simplifyRun st live).1 []
      (simplifyRun st live).2).2.2 = false := by
  constructor
  · intro hc
    have h1 : simplifyRun st live =
        simplifyLoopF live.length (simplifyPassF live.length st [] live).1
          (simplifyPassF live.length st [] live).2.1 := by
      simp only [simplifyRun, simplifyLoopF, hc]
      rfl
    have hlt : (simplifyPassF live.length st [] live).2.1.length < live.length := by
      have := (pass_length live.length live st [] le_rfl).2 hc
      simpa using this
    rw [h1]
    exact loop_stab (simplifyPassF live.length st [] live).2.1.length live.length
      ((simplifyPassF live.length st [] live).2.1.length + 1) _ _ le_rfl hlt
      (Nat.lt_succ_self _)
  · exact loop_fix (live.length + 1) st live (Nat.lt_succ_self _)

theorem c8_witness :
    simplifyRun stW [0, 1, 2] =
      simplifyRun (simplifyPassF 3 stW [] [0, 1, 2]).1
        (simplifyPassF 3 stW [] [0, 1, 2]).2.1 ∧
    (simplifyPassF (simplifyRun stW [0, 1, 2]).2.length (simplifyRun stW [0, 1, 2]).1 []
      (simplifyRun stW [0, 1, 2]).2).2.2 = false :=
  ⟨(c8_minimizer_restart stW [0, 1, 2]).1 (by decide),
   (c8_minimizer_restart stW [0, 1, 2]).2⟩

/-- A deliberately cyclic two-state NFA (mutual epsilon arcs), witnessing
termination of the closure computation on cyclic inputs. -/
def nfaCyc : NFA :=
  { ruleName := "cyc", arcList := [[(none, 1)], [(none, 0)]], start := 0, finish := 1 }

/-- Claim C9: termination of epsilon-closure and of minimization.
`addclosure` terminates on every NFA, cyclic ones included: a state
already in the accumulating set returns immediately and any other state is
inserted before the recursion, so the unvisited-state count strictly
shrinks — formally, past the explicit potential the closure is
independent of the fuel.  The `_simplify_dfas` fixed-point loop terminates
because a pass that merges strictly shrinks the DFA-state list — formally
every changing pass shortens the live list, so past `live.length` full
passes the loop is independent of the fuel. -/
theorem c9_termination :
    (∀ (nfa : NFA) (k f g : Nat) (todo base : List Nat),
      (Finset.range nfa.size \ base.toFinset).card * (maxDeg nfa + 1) + todo.length ≤ k →
      k < f → k < g → closureF f nfa todo base = closureF g nfa todo base) ∧
    (∀ (f : Nat) (todo : List Nat) (st : Store) (done : List Nat),
      todo.length ≤ f → (simplifyPassF f st done todo).2.2 = true →
      (simplifyPassF f st done todo).2.1.length < done.length + todo.length) ∧
    (∀ (n f g : Nat) (st : Store) (live : List Nat),
      live.length ≤ n → n < f → n < g →
      simplifyLoopF f st live = simplifyLoopF g st live) :=
  ⟨closureF_stab, fun f todo st done h => (pass_length f todo st done h).2, loop_stab⟩

theorem c9_witness :
    closureF 6 nfaCyc [0] [] = closureF 7 nfaCyc [0] [] ∧
    simplifyLoopF 4 stW [0, 1, 2] = simplifyLoopF 5 stW [0, 1, 2] :=
  ⟨c9_termination.1 nfaCyc 5 6 7 [0] [] (by decide) (by decide) (by decide),
   c9_termination.2.2 3 4 5 stW [0, 1, 2] (by decide) (by decide) (by decide)⟩

/-- Claim C2: left-recursion detection.  During FIRST-plan computation,
when the lookup of a callee's first plans observes the in-progress
sentinel (`None`), compilation fails with a left-recursion error naming
the rule whose computation observed it — a rule that is itself still in
progress, its own sentinel having been set on entry; no result is
produced.  In particular the grammar `a: a 'x' | 'y'` fails compilation
with a left-recursion error naming `a`, and no `Grammar` is returned. -/
theorem c2_left_recursion_detection :
    (∀ (f : Nat) (tbl : List (String × List Nat)) (st : Store)
        (memo : List (String × Option (List (TransKey × List Nat))))
        (rule c : String) (x : Nat) (rest : List (String × Nat)),
      (st (((aget rule tbl).getD []).headD 0)).nonterminalArcs = (c, x) :: rest →
      aget c (aset rule none memo) = some none →
      calcFirstPlansF (f + 1) tbl st memo rule = .error (.leftRecursion rule) ∧
        aget rule (aset rule none memo) = some none) ∧
    grammarErr (generateGrammar nsEx decodeLit [nfaLeftRec]) =
      some (.leftRecursion "a") := by
  constructor
  · intro f tbl st memo rule c x rest harcs hmemo
    constructor
    · simp only [calcFirstPlansF, harcs, ntLoopWith, hmemo]
    · exact aget_aset_self rule none memo
  · decide

theorem c2_witness :
    calcFirstPlansF 2 (buildRules [nfaLeftRec] [] []).2
        (classifyAll ["a"] nsEx decodeLit (buildRules [nfaLeftRec] [] []).2
          (storeOf (buildRules [nfaLeftRec] [] []).1) []).1 [] "a" =
      .error (.leftRecursion "a") :=
  (c2_left_recursion_detection.1 1 (buildRules [nfaLeftRec] [] []).2
    (classifyAll ["a"] nsEx decodeLit (buildRules [nfaLeftRec] [] []).2
      (storeOf (buildRules [nfaLeftRec] [] []).1) []).1 [] "a" "a" 1 []
    (by decide) (by decide)).1

/-- Claim C3: ambiguity detection.  While combining a callee's first
plans into a rule's accumulating map, a transition already present in the
map makes compilation fail with an ambiguity error naming the rule, the
transition, the new origin rule, and the rule of the last state of the
already-recorded push chain.  In particular the grammar `a: b | c`,
`b: 'x'`, `c: 'x'` fails naming `a`, the interned token `'x'`, and both
`b` and `c`. -/
theorem c3_ambiguity_detection :
    (∀ (st : Store) (rule nt2 : String) (next : Nat) (t : TransKey)
        (pushes : List Nat) (rest acc : List (TransKey × List Nat))
        (check : List Nat),
      aget t acc = some check →
      combineFirst st rule nt2 next ((t, pushes) :: rest) acc =
        .error (.ambiguity rule t nt2 ((st (check.getLastD 0)).fromRule))) ∧
    grammarErr (generateGrammar nsEx decodeLit [nfaAmbA, nfaAmbB, nfaAmbC]) =
      some (.ambiguity "a" (.reserved 0) "c" "b") := by
  constructor
  · intro st rule nt2 next t pushes rest acc check hget
    simp only [combineFirst, hget]
  · decide

theorem c3_witness :
    combineFirst stW "a" "c" 0 [(.reserved 0, [2])] [(.reserved 0, [1])] =
      .error (.ambiguity "a" (.reserved 0) "c" "w") :=
  c3_ambiguity_detection.1 stW "a" "c" 0 (.reserved 0) [2] [] [(.reserved 0, [1])] [1]
    (by decide)

/-! ## Helper lemmas for the FIRST-plan and interning claims -/

theorem termFold_skip :
    ∀ (il : List (TransKey × DFAPlan)) (acc : List (TransKey × List Nat)) (t : TransKey),
      t ∉ il.map Prod.fst →
      aget t (il.foldl (fun a p => aset p.1 [p.2.nextDfa] a) acc) = aget t acc := by
  intro il
  induction il with
  | nil => intro acc t _; rfl
  | cons p rest ih =>
    intro acc t hnot
    simp only [List.map_cons, List.mem_cons] at hnot
    push_neg at hnot
    simp only [List.foldl_cons]
    rw [ih _ t hnot.2]
    exact aget_aset_ne _ (fun he => hnot.1 he.symm) acc

theorem termFold_aget :
    ∀ (il : List (TransKey × DFAPlan)) (acc : List (TransKey × List Nat))
      (t : TransKey) (plan : DFAPlan),
      nodupKeys il → (t, plan) ∈ il →
      aget t (il.foldl (fun a p => aset p.1 [p.2.nextDfa] a) acc) =
        some [plan.nextDfa] := by
  intro il
  induction il with
  | nil => intro acc t plan _ h; simp at h
  | cons p rest ih =>
    intro acc t plan hnd hmem
    simp only [List.foldl_cons]
    rcases List.mem_cons.mp hmem with hm | hm
    · have ht : p.1 = t := by rw [← hm]
      have hplan : p.2 = plan := by rw [← hm]
      have hnot : t ∉ rest.map Prod.fst := by
        have := (List.nodup_cons.mp hnd).1
        rwa [ht] at this
      rw [termFold_skip rest _ t hnot, ← ht, ← hplan]
      exact aget_aset_self p.1 [p.2.nextDfa] acc
    · exact ih _ t plan (List.nodup_cons.mp hnd).2 hm

theorem combineFirst_mono (st : Store) (rule nt2 : String) (next : Nat) :
    ∀ (fp2 : List (TransKey × List Nat)) (acc acc2 : List (TransKey × List Nat))
      (k : TransKey) (v : List Nat),
      combineFirst st rule nt2 next fp2 acc = .ok acc2 →
      aget k acc = some v → aget k acc2 = some v := by
  intro fp2
  induction fp2 with
  | nil =>
    intro acc acc2 k v hok hget
    simp only [combineFirst] at hok
    cases hok
    exact hget
  | cons tp rest ih =>
    intro acc acc2 k v hok hget
    cases tp with
    | mk t0 p0 =>
      cases hA : aget t0 acc with
      | some check => simp [combineFirst, hA] at hok
      | none =>
        simp only [combineFirst, hA] at hok
        apply ih _ _ k v hok
        by_cases hk : t0 = k
        · rw [← hk] at hget
          rw [hget] at hA
          cases hA
        · rw [aget_aset_ne _ hk]
          exact hget

theorem combineFirst_aget (st : Store) (rule nt2 : String) (next : Nat) :
    ∀ (fp2 : List (TransKey × List Nat)) (acc acc2 : List (TransKey × List Nat))
      (t : TransKey) (pushes : List Nat),
      combineFirst st rule nt2 next fp2 acc = .ok acc2 →
      (t, pushes) ∈ fp2 → aget t acc2 = some (next :: pushes) := by
  intro fp2
  induction fp2 with
  | nil => intro acc acc2 t pushes _ h; simp at h
  | cons tp rest ih =>
    intro acc acc2 t pushes hok hmem
    cases tp with
    | mk t0 p0 =>
      cases hA : aget t0 acc with
      | some check => simp [combineFirst, hA] at hok
      | none =>
        simp only [combineFirst, hA] at hok
        rcases List.mem_cons.mp hmem with hm | hm
        · injection hm with h1 h2
          subst h1
          subst h2
          exact combineFirst_mono st rule nt2 next rest _ _ t (next :: pushes) hok
            (aget_aset_self t (next :: pushes) acc)
        · exact ih _ _ t pushes hok hm

theorem mt_quoted (ns : String → Nat) (decode : String → String)
    (tb : List (String × Nat)) (l : String)
    (h : (l.toList.headD '!').isAlpha = false) :
    ∃ i, (makeTransition ns decode tb l).1 = .reserved i ∧
      aget (decode l) (makeTransition ns decode tb l).2 = some i := by
  have hcond : ¬((l.toList.headD '!').isAlpha = true) := by
    rw [h]; exact Bool.false_ne_true
  cases hA : aget (decode l) tb with
  | some i =>
    refine ⟨i, ?_, ?_⟩
    · simp only [makeTransition]
      rw [if_neg hcond, hA]
    · simp only [makeTransition]
      rw [if_neg hcond, hA]
      exact hA
  | none =>
    refine ⟨tb.length, ?_, ?_⟩
    · simp only [makeTransition]
      rw [if_neg hcond, hA]
    · simp only [makeTransition]
      rw [if_neg hcond, hA]
      exact aget_aset_self (decode l) tb.length tb

theorem mt_mono (ns : String → Nat) (decode : String → String)
    (tb : List (String × Nat)) (l v : String) (i : Nat)
    (h : aget v tb = some i) :
    aget v (makeTransition ns decode tb l).2 = some i := by
  by_cases ha : (l.toList.headD '!').isAlpha = true
  · simp only [makeTransition]
    rw [if_pos ha]
    exact h
  · cases hA : aget (decode l) tb with
    | some j =>
      simp only [makeTransition]
      rw [if_neg ha, hA]
      exact h
    | none =>
      simp only [makeTransition]
      rw [if_neg ha, hA]
      show aget v (aset (decode l) tb.length tb) = some i
      by_cases hv : decode l = v
      · rw [hv] at hA
        rw [h] at hA
        cases hA
      · rw [aget_aset_ne _ hv]
        exact h

theorem mt_fold_mono (ns : String → Nat) (decode : String → String) :
    ∀ (ls : List String) (tb : List (String × Nat)) (v : String) (i : Nat),
      aget v tb = some i →
      aget v (ls.foldl (fun t l => (makeTransition ns decode t l).2) tb) = some i := by
  intro ls
  induction ls with
  | nil => intro tb v i h; exact h
  | cons l rest ih =>
    intro tb v i h
    simp only [List.foldl_cons]
    exact ih _ v i (mt_mono ns decode tb l v i h)

theorem mt_found (ns : String → Nat) (decode : String → String)
    (tb : List (String × Nat)) (l : String) (i : Nat)
    (h : (l.toList.headD '!').isAlpha = false)
    (hA : aget (decode l) tb = some i) :
    makeTransition ns decode tb l = (.reserved i, tb) := by
  have hcond : ¬((l.toList.headD '!').isAlpha = true) := by
    rw [h]; exact Bool.false_ne_true
  simp only [makeTransition]
  rw [if_neg hcond, hA]

theorem headD_nfaSet_of_map {l : List DFAState} {c : List Nat} {ext : List (List Nat)}
    (h : l.map (fun s => s.nfaSet) = c :: ext) : (l.headD default).nfaSet = c := by
  cases l with
  | nil => cases h
  | cons a t =>
    simp only [List.map_cons, List.cons.injEq] at h
    exact h.1

/-! ## Remaining claim theorems -/

def gStmtExpr : GrammarT :=
  (generateGrammar nsEx decodeLit [nfaStmt, nfaExpr]).toOption.getD ⟨"", [], storeOf [], []⟩

def gPlus : GrammarT :=
  (generateGrammar nsEx decodeLit [nfaPlusP, nfaPlusQ]).toOption.getD ⟨"", [], storeOf [], []⟩

def gSeq : GrammarT :=
  (generateGrammar nsEx decodeLit [nfaSeqS, nfaSeqC]).toOption.getD ⟨"", [], storeOf [], []⟩

def brOvr : List DFAState × List (String × List Nat) := buildRules [nfaOvrR, nfaOvrB] [] []

def clOvr : Store × List (String × Nat) :=
  classifyAll (brOvr.2.map Prod.fst) nsEx decodeLit brOvr.2 (storeOf brOvr.1) []

def brSeq : List DFAState × List (String × List Nat) := buildRules [nfaSeqS, nfaSeqC] [] []

def clSeq : Store × List (String × Nat) :=
  classifyAll (brSeq.2.map Prod.fst) nsEx decodeLit brSeq.2 (storeOf brSeq.1) []

/-- The map returned by a standalone run of `_calculate_first_plans`. -/
def fpResult (tbl : List (String × List Nat)) (st : Store) (rule : String) :
    Option (List (TransKey × List Nat)) :=
  match calcFirstPlansF (tbl.length + 1) tbl st [] rule with
  | .ok (_, m) => some m
  | .error _ => none

/-- Claim C4: push-plan composition.  A first-plan entry obtained through
a nonterminal arc `(callee, next_state)` maps each of the callee's first
transitions to the chain `[next_state] + push_chain` (the combine step), a
direct terminal arc of the entry state maps its transition to the
length-one chain `[plan.next_dfa]` (the terminal fold), and in the
compiled grammar `stmt: expr NEWLINE`, `expr: NUMBER`, the entry state of
`stmt` has an `ilabel_to_plan` entry for the `NUMBER` token type whose
push chain is exactly the one `expr` state reached after consuming
`NUMBER`, and whose `next_dfa` is the `stmt` state reached after the
`expr` arc. -/
theorem c4_push_plan_composition :
    (∀ (il : List (TransKey × DFAPlan)) (acc : List (TransKey × List Nat))
        (t : TransKey) (plan : DFAPlan),
      nodupKeys il → (t, plan) ∈ il →
      aget t (il.foldl (fun a p => aset p.1 [p.2.nextDfa] a) acc) =
        some [plan.nextDfa]) ∧
    (∀ (st : Store) (rule nt2 : String) (next : Nat)
        (fp2 acc acc2 : List (TransKey × List Nat)) (t : TransKey)
        (pushes : List Nat),
      combineFirst st rule nt2 next fp2 acc = .ok acc2 →
      (t, pushes) ∈ fp2 → aget t acc2 = some (next :: pushes)) ∧
    (planAt gStmtExpr "stmt" (.token 1) = some ⟨1, [4]⟩ ∧
      aget "expr" (gStmtExpr.store (entryOf gStmtExpr "stmt")).nonterminalArcs = some 1 ∧
      planAt gStmtExpr "expr" (.token 1) = some ⟨4, []⟩) :=
  ⟨termFold_aget, combineFirst_aget, by decide, by decide, by decide⟩

theorem c4_witness :
    aget (TransKey.token 1)
      ([((TransKey.token 1 : TransKey), (⟨4, []⟩ : DFAPlan))].foldl
        (fun a p => aset p.1 [p.2.nextDfa] a) []) = some [4] ∧
    aget (TransKey.token 1) (aset (TransKey.token 1) [1, 4] []) = some [1, 4] :=
  ⟨c4_push_plan_composition.1 [((TransKey.token 1 : TransKey), (⟨4, []⟩ : DFAPlan))]
    [] (.token 1) ⟨4, []⟩ (by decide) (by decide),
   c4_push_plan_composition.2.1 stW "stmt" "expr" 1 [(.token 1, [4])] []
    (aset (TransKey.token 1) [1, 4] []) (.token 1) [4] (by rfl) (by decide)⟩

/-- Claim C5: reserved-string interning.  Any two quoted literals that
decode to the same value, in whatever rules and however separated by
other transitions, resolve through the single shared table to the very
same `ReservedString` identity, and the second occurrence allocates
nothing (the table is unchanged).  In the compiled two-rule grammar
`p: '+'`, `q: '+'`, the shared table holds exactly one entry and both
rules' entry plans are keyed by the same `ReservedString` identity. -/
theorem c5_reserved_string_interning :
    (∀ (ns : String → Nat) (decode : String → String) (tb : List (String × Nat))
        (l1 l2 : String) (ls : List String),
      (l1.toList.headD '!').isAlpha = false →
      (l2.toList.headD '!').isAlpha = false →
      decode l1 = decode l2 →
      (makeTransition ns decode
          (ls.foldl (fun t l => (makeTransition ns decode t l).2)
            (makeTransition ns decode tb l1).2) l2).1 =
        (makeTransition ns decode tb l1).1 ∧
      (makeTransition ns decode
          (ls.foldl (fun t l => (makeTransition ns decode t l).2)
            (makeTransition ns decode tb l1).2) l2).2 =
        ls.foldl (fun t l => (makeTransition ns decode t l).2)
          (makeTransition ns decode tb l1).2) ∧
    (gPlus.reservedSyntaxStrings = [("+", 0)] ∧
      planAt gPlus "p" (.reserved 0) = some ⟨1, []⟩ ∧
      planAt gPlus "q" (.reserved 0) = some ⟨3, []⟩) := by
  constructor
  · intro ns decode tb l1 l2 ls h1 h2 hd
    obtain ⟨i, hk, hget⟩ := mt_quoted ns decode tb l1 h1
    have hget2 := mt_fold_mono ns decode ls (makeTransition ns decode tb l1).2
      (decode l1) i hget
    rw [hd] at hget2
    rw [mt_found ns decode _ l2 i h2 hget2, hk]
    exact ⟨rfl, rfl⟩
  · exact ⟨by decide, by decide, by decide⟩

theorem c5_witness :
    (makeTransition nsEx decodeLit
        (["'x'"].foldl (fun t l => (makeTransition nsEx decodeLit t l).2)
          (makeTransition nsEx decodeLit [] "'+'").2) "'+'").1 =
      (makeTransition nsEx decodeLit [] "'+'").1 ∧
    (makeTransition nsEx decodeLit
        (["'x'"].foldl (fun t l => (makeTransition nsEx decodeLit t l).2)
          (makeTransition nsEx decodeLit [] "'+'").2) "'+'").2 =
      ["'x'"].foldl (fun t l => (makeTransition nsEx decodeLit t l).2)
        (makeTransition nsEx decodeLit [] "'+'").2 :=
  c5_reserved_string_interning.1 nsEx decodeLit [] "'+'" "'+'" ["'x'"]
    (by decide) (by decide) (by decide)

/-- Claim C7: powerset-construction postconditions.  The list returned by
`_make_dfas` has as its first element the `DFAState` representing the
epsilon-closure of the NFA start state, every state in the list is final
exactly when the rule's NFA final state belongs to its represented set,
and no two states in the list represent the same NFA set (a closure set is
matched against existing states by structural set equality and reused
rather than duplicated). -/
theorem c7_powerset_postconditions (nfa : NFA) :
    ((makeDfas nfa).headD default).nfaSet = closureRun nfa [nfa.start] [] ∧
    (∀ s ∈ makeDfas nfa, s.isFinal = true ↔ nfa.finish ∈ s.nfaSet) ∧
    ((makeDfas nfa).map (fun s => s.nfaSet)).Nodup := by
  have h1 : ∀ s ∈ [mkDFAState nfa.ruleName (closureRun nfa [nfa.start] []) nfa.finish],
      s.isFinal = decide (nfa.finish ∈ s.nfaSet) := by
    intro s hs
    simp only [List.mem_singleton] at hs
    subst hs
    rfl
  have h2 : (([mkDFAState nfa.ruleName (closureRun nfa [nfa.start] []) nfa.finish]).map
      (fun x => x.nfaSet)).Nodup := List.nodup_singleton _
  obtain ⟨q1, q2, ext, hext⟩ :=
    makeDfasLoop_inv (2 ^ nfa.size + 1) nfa
      [mkDFAState nfa.ruleName (closureRun nfa [nfa.start] []) nfa.finish] 0 h1 h2
  refine ⟨?_, ?_, q2⟩
  · exact headD_nfaSet_of_map hext
  · intro s hs
    rw [q1 s hs]
    exact decide_eq_true_iff

theorem c7_witness :
    ((makeDfas nfaStmt).headD default).nfaSet = closureRun nfaStmt [nfaStmt.start] [] :=
  (c7_powerset_postconditions nfaStmt).1

/-- Claim C10: silent overwrite on terminal/nonterminal transition
conflicts.  In `_calculate_first_plans` the direct-terminal fold runs
last and assigns unconditionally, so a direct terminal plan replaces any
nonterminal-derived entry for the same transition with no ambiguity
error; the grammar `r: b | 'x'`, `b: 'x'` compiles (no error) and `r`'s
first-plan chain for `'x'` is the direct one-state chain, not the
two-state chain through `b`.  In the traversal pass the
nonterminal-derived `DFAPlan` is assigned unconditionally over any direct
entry: in `s: 'a' ('x' | c)`, `c: 'x' 'y'`, the state of `s` after `'a'`
is classified with the direct plan for `'x'` and ends, after traversal,
with the `c`-derived plan carrying a push chain. -/
theorem c10_silent_overwrite :
    (∀ (il : List (TransKey × DFAPlan)) (acc : List (TransKey × List Nat))
        (t : TransKey) (v : List Nat) (plan : DFAPlan),
      nodupKeys il → (t, plan) ∈ il → aget t acc = some v →
      aget t (il.foldl (fun a p => aset p.1 [p.2.nextDfa] a) acc) =
        some [plan.nextDfa]) ∧
    (grammarErr (generateGrammar nsEx decodeLit [nfaOvrR, nfaOvrB]) = none ∧
      fpResult brOvr.2 clOvr.1 "r" = some [(.reserved 0, [1])] ∧
      fpResult brOvr.2 clOvr.1 "b" = some [(.reserved 0, [4])]) ∧
    (grammarErr (generateGrammar nsEx decodeLit [nfaSeqS, nfaSeqC]) = none ∧
      (clSeq.1 1).ilabelToPlan = [(.reserved 1, ⟨2, []⟩)] ∧
      aget "c" (clSeq.1 1).nonterminalArcs = some 2 ∧
      (gSeq.store 1).ilabelToPlan = [(.reserved 1, ⟨2, [5]⟩)]) :=
  ⟨fun il acc t v plan hnd hmem _ => termFold_aget il acc t plan hnd hmem,
   ⟨by decide, by decide, by decide⟩,
   ⟨by decide, by decide, by decide, by decide⟩⟩

theorem c10_witness :
    aget (TransKey.reserved 0)
      ([((TransKey.reserved 0 : TransKey), (⟨1, []⟩ : DFAPlan))].foldl
        (fun a p => aset p.1 [p.2.nextDfa] a) [(.reserved 0, [7, 8])]) = some [1] :=
  c10_silent_overwrite.1 [((TransKey.reserved 0 : TransKey), (⟨1, []⟩ : DFAPlan))]
    [(.reserved 0, [7, 8])] (.reserved 0) [7, 8] ⟨1, []⟩
    (by decide) (by decide) (by decide)

end Pgen
